import Mathlib

/-!
Verification of the Markdown-to-PDF conversion pipeline
(skills/parse-md-to-pdf/scripts/md-to-pdf.mjs).

The development shallowly embeds the conversion logic of the script:
the highlight callback installed via marked-highlight, the mermaid
placeholder scheme, the placeholder reinjection loop, the escapeHtml
function, the document assembler buildHtmlDocument, and the Puppeteer
driver generatePdf (as a step trace over an environment oracle).
External collaborators (marked, highlight.js, Puppeteer) are modelled
only to the extent the verified properties depend on them; each such
modelling choice is recorded in the corresponding doc comment.
-/

namespace MdToPdf

/-! ## Decimal numerals

The script interpolates the JavaScript number mermaidIndex into the
placeholder string.  For natural numbers, JavaScript number-to-string
conversion is the usual base-10 numeral; decimal below is that
conversion, and decVal is its left inverse. -/

/-- The character for a single decimal digit d (0 ≤ d ≤ 9). -/
def digitCharOf (d : Nat) : Char := Char.ofNat (48 + d)

/-- Base-10 numeral of a natural number, most significant digit first.
Embeds the JavaScript template interpolation of mermaidIndex. -/
def decimal (n : Nat) : List Char :=
  if n < 10 then [digitCharOf n]
  else decimal (n / 10) ++ [digitCharOf (n % 10)]
  decreasing_by exact Nat.div_lt_self (by omega) (by omega)

/-- Reads a digit string back to its value; left inverse of decimal. -/
def decVal (l : List Char) : Nat :=
  l.foldl (fun a c => 10 * a + (c.toNat - 48)) 0

/-- Digit predicate used to separate numerals from delimiters. -/
def isDigitChar (c : Char) : Prop := 48 ≤ c.toNat ∧ c.toNat ≤ 57

/-! ## escapeHtml

Source (md-to-pdf.mjs lines 102-108):
  function escapeHtml(text) {
    return text
      .replace(/&/g, "&amp;")
      .replace(/</g, "&lt;")
      .replace(/>/g, "&gt;")
      .replace(/"/g, "&quot;");
  }
Each call is a global replacement of a single-character pattern, which
is exactly a per-character substitution over the string. -/

/-- Global single-character replacement: embeds one
text.replace(/c/g, r) call of the source. -/
def replaceAllChar (c : Char) (r : String) (s : String) : String :=
  String.mk (s.data.flatMap (fun d => if d = c then r.data else [d]))

/-- escapeHtml from md-to-pdf.mjs: the four chained global
replacements, ampersand first. -/
def escapeHtml (text : String) : String :=
  replaceAllChar '"' "&quot;"
    (replaceAllChar '>' "&gt;"
      (replaceAllChar '<' "&lt;"
        (replaceAllChar '&' "&amp;" text)))

/-- Per-character form of the composed substitutions: later patterns
never occur in the replacement text of earlier ones, so the chain acts
independently on each source character. -/
def escChar (c : Char) : List Char :=
  if c = '&' then "&amp;".data
  else if c = '<' then "&lt;".data
  else if c = '>' then "&gt;".data
  else if c = '"' then "&quot;".data
  else [c]

/-- List-level view of replaceAllChar. -/
def racL (c : Char) (r : List Char) (l : List Char) : List Char :=
  l.flatMap (fun d => if d = c then r else [d])

/-- The four-stage chain at list level. -/
def escChainL (l : List Char) : List Char :=
  racL '"' "&quot;".data
    (racL '>' "&gt;".data
      (racL '<' "&lt;".data
        (racL '&' "&amp;".data l)))

/-- Inverse substitution: rewrites the four entities back to their
source characters.  Any output of escapeHtml is decoded exactly. -/
def unescL : List Char → List Char
  | '&' :: 'a' :: 'm' :: 'p' :: ';' :: rest => '&' :: unescL rest
  | '&' :: 'l' :: 't' :: ';' :: rest => '<' :: unescL rest
  | '&' :: 'g' :: 't' :: ';' :: rest => '>' :: unescL rest
  | '&' :: 'q' :: 'u' :: 'o' :: 't' :: ';' :: rest => '"' :: unescL rest
  | c :: rest => c :: unescL rest
  | [] => []

/-- String-level inverse of escapeHtml. -/
def unescapeHtml (s : String) : String := String.mk (unescL s.data)

/-! ## Data model

A MarkdownDocument is modelled as the sequence of top-level pieces
relevant to the conversion pipeline: fenced code blocks (with their
info-string language tag, empty when absent) and all other content.
Non-fence content passes to the HTML fragment as emitted by marked;
since raw HTML blocks pass through marked verbatim, the model lets a
raw segment contribute arbitrary text to the fragment, which is
exactly the generality the collision claims are about.  Markdown
inline rendering (headings, emphasis, tables) is irrelevant to every
claim and is therefore not modelled beyond this. -/

inductive Seg
  | raw (s : String)
  | fence (lang : String) (code : String)
deriving DecidableEq

/-- DiagramBlock of the spec; mermaidBlocks element of the source:
{ index: mermaidIndex, code }. -/
structure MermaidBlock where
  index : Nat
  code : String
deriving DecidableEq

/-! ## External collaborator models (highlight.js, marked) -/

/-- Modelled external: a finite registry of grammars known to
highlight.js.  The claims depend only on membership being decidable
and on "mermaid" not being a registered language. -/
def hljsLanguages : List String :=
  ["javascript", "typescript", "python", "json", "bash", "shell",
   "html", "xml", "css", "java", "c", "cpp", "csharp", "rust", "go",
   "ruby", "php", "sql", "yaml", "markdown", "plaintext"]

/-- Modelled external: hljs.getLanguage(lang) truthiness. -/
def hljsGetLanguage (lang : String) : Bool := hljsLanguages.contains lang

/-- Modelled external: hljs.highlight(code, { language: lang }).value.
It throws on an unregistered language; on a registered one it returns
HTML-safe markup for the code.  The span markup highlight.js adds is
omitted: no claim depends on it, only on the output being produced
without error and containing no raw chevrons. -/
def hljsHighlight (code lang : String) : Except String String :=
  if hljsGetLanguage lang then Except.ok (escapeHtml code)
  else Except.error ("Unknown language: " ++ lang)

/-- Modelled external: hljs.highlightAuto(code).value, the best-effort
automatic-detection fallback; total, never throws. -/
def hljsHighlightAuto (code : String) : String := escapeHtml code

/-- Fixed prefix of every placeholder token (source line 64). -/
def phPre : String := "<!--MERMAID_PLACEHOLDER_"

/-- The placeholder token for index i, from source line 64:
the template literal <!--MERMAID_PLACEHOLDER_${mermaidIndex}-->. -/
def placeholder (i : Nat) : String := phPre ++ String.mk (decimal i) ++ "-->"

/-- Wrapper prefix marked produces around highlight output for a
mermaid-tagged fence (langPrefix "hljs language-"). -/
def wrapPre : String := "<pre><code class=\"hljs language-mermaid\">"

/-- Wrapper suffix marked produces after code content (marked appends
a newline to fenced content before closing the element; the \s* in the
source regex exists to absorb it). -/
def wrapSuf : String := "\n</code></pre>"

/-- Modelled external: how marked wraps the highlight callback result
for a fenced block, with the configured langPrefix "hljs language-"
(source lines 58-76); class attribute omitted when no language tag. -/
def renderFence (lang : String) (inner : String) : String :=
  if lang = "" then "<pre><code>" ++ inner ++ wrapSuf
  else "<pre><code class=\"hljs language-" ++ lang ++ "\">" ++ inner ++ wrapSuf

/-- Everything before the escaped payload in a diagram container. -/
def containerPre : String := "<div class=\"mermaid-container\"><div class=\"mermaid\">"

/-- Everything after the escaped payload in a diagram container. -/
def containerSuf : String := "</div></div>"

/-- The replacement emitted for one mermaid block (source line 95):
the template literal
<div class="mermaid-container"><div class="mermaid">${escapeHtml(block.code)}</div></div>. -/
def mermaidDiv (code : String) : String :=
  containerPre ++ escapeHtml code ++ containerSuf

/-! ## The parse stage (markdownToHtml, first half) -/

/-- The highlight callback of markedHighlight (source lines 61-74),
with the closure state (mermaidIndex, mermaidBlocks) threaded
explicitly.  The Except output records that hljs.highlight would
throw if reached with an unregistered language; the lang guard is
exactly the source condition lang && hljs.getLanguage(lang). -/
def highlightFn (st : Nat × List MermaidBlock) (code lang : String) :
    (Nat × List MermaidBlock) × Except String String :=
  if lang = "mermaid" then
    ((st.1 + 1, st.2 ++ [⟨st.1, code⟩]), Except.ok (placeholder st.1))
  else if lang ≠ "" ∧ hljsGetLanguage lang then
    (st, hljsHighlight code lang)
  else
    (st, Except.ok (hljsHighlightAuto code))

/-- marked.parse over the document (source line 83): renders each
piece in order, wrapping each fence around the highlight callback
result, concatenating the fragment, and propagating any exception the
callback would raise. -/
def parseGo (st : Nat × List MermaidBlock) (acc : String) :
    List Seg → Except String (String × Nat × List MermaidBlock)
  | [] => Except.ok (acc, st)
  | Seg.raw s :: rest => parseGo st (acc ++ s) rest
  | Seg.fence lang code :: rest =>
    match highlightFn st code lang with
    | (_, Except.error e) => Except.error e
    | (st', Except.ok v) => parseGo st' (acc ++ renderFence lang v) rest

/-! ## The reinjection stage (markdownToHtml, second half)

The source (lines 91-96) builds, for each recorded block, the regex
new RegExp(pre-code-open + wildcard + close-angle + ws-star +
escapedPlaceholder + ws-star + code-pre-close, "g") -- the placeholder
is regex-escaped, so it matches literally; the attribute wildcard
matches any run of characters other than a closing angle bracket; the
whitespace stars match any whitespace runs -- and runs
html.replace(regex, mermaidDiv).  The embedding below implements that
regex exactly (each piece of the pattern is deterministic: the
attribute wildcard cannot consume the closing angle bracket that must
follow it, and a whitespace run cannot consume the non-whitespace
character that begins the next literal), and implements the
GetSubstitution step of String.prototype.replace, where the
replacement string's dollar patterns are interpreted. -/

/-- The literal the regex opens with. -/
def litPreCode : List Char := "<pre><code".data

/-- The literal the regex closes with. -/
def litClose : List Char := "</code></pre>".data

/-- JavaScript regex whitespace, restricted to the ASCII characters
(the non-ASCII code points JS also accepts never occur in the markup
this pipeline emits or matches on). -/
def isWsChar (c : Char) : Bool :=
  c = ' ' || c = '\t' || c = '\n' || c = '\r' || c = '\x0b' || c = '\x0c'

/-- The tail of the regex from the placeholder on: the escaped
placeholder literal, a whitespace run, and the closing literal.
Returns the matched whitespace run and the remainder after the
match. -/
def matchTail (ph s4 : List Char) : Option (List Char × List Char) :=
  if ph.isPrefixOf s4 then
    let s5 := s4.drop ph.length
    let ws2 := s5.takeWhile isWsChar
    let s6 := s5.dropWhile isWsChar
    if litClose.isPrefixOf s6 then
      some (ws2, s6.drop litClose.length)
    else none
  else none

/-- Whether the reinjection regex matches at the head of s; on success
returns the matched text and the remainder.  ph is the placeholder
literal the source splices (regex-escaped) into the pattern. -/
def matchWrapperAt (ph : List Char) (s : List Char) :
    Option (List Char × List Char) :=
  if litPreCode.isPrefixOf s then
    let s1 := s.drop litPreCode.length
    let attrs := s1.takeWhile (fun c => c ≠ '>')
    match s1.dropWhile (fun c => c ≠ '>') with
    | g :: s3 =>
      let ws1 := s3.takeWhile isWsChar
      let s4 := s3.dropWhile isWsChar
      match matchTail ph s4 with
      | some (ws2, a) =>
          some (litPreCode ++ (attrs ++ (g :: (ws1 ++ (ph ++ (ws2 ++ litClose))))), a)
      | none => none
    | [] => none
  else none

/-- GetSubstitution of String.prototype.replace for a pattern with no
capture groups: dollar-dollar yields a dollar, dollar-ampersand the
matched text, dollar-backtick the text before the match,
dollar-apostrophe the text after it; any other dollar (digits
included, since the regex has no groups) is literal. -/
def getSubst (matched pre post : List Char) : List Char → List Char
  | '$' :: '$' :: rest => '$' :: getSubst matched pre post rest
  | '$' :: '&' :: rest => matched ++ getSubst matched pre post rest
  | '$' :: '`' :: rest => pre ++ getSubst matched pre post rest
  | '$' :: '\'' :: rest => post ++ getSubst matched pre post rest
  | c :: rest => c :: getSubst matched pre post rest
  | [] => []

/-- True when the replacement text contains no dollar pattern, so that
GetSubstitution leaves it unchanged whatever was matched. -/
def substIdOn : List Char → Bool
  | '$' :: '$' :: _ => false
  | '$' :: '&' :: _ => false
  | '$' :: '`' :: _ => false
  | '$' :: '\'' :: _ => false
  | _ :: rest => substIdOn rest
  | [] => true

/-- The scan of a global replace: at each position try the regex; on a
match, emit the substituted replacement and continue after the match;
otherwise copy one character.  pre is the original text before the
scan position (the subject of a dollar-backtick substitution).  fuel
bounds the scan -- every step consumes at least one character of the
subject, so fuel = length suffices and the zero case is unreachable
from replaceWrap; it exists to make the recursion structural. -/
def replaceWrapFuel (ph repl : List Char) : Nat → List Char → List Char → List Char
  | 0, _, s => s
  | _ + 1, _, [] => []
  | fuel + 1, pre, c :: rest =>
    match matchWrapperAt ph (c :: rest) with
    | some (m, a) =>
        getSubst m pre a repl ++ replaceWrapFuel ph repl fuel (pre ++ m) a
    | none => c :: replaceWrapFuel ph repl fuel (pre ++ [c]) rest

/-- html.replace(wrappedPattern, replacement) with the global flag
(source line 96). -/
def replaceWrap (ph repl s : List Char) : List Char :=
  replaceWrapFuel ph repl s.length [] s

/-- The canonical wrapper marked emits around placeholder i: the one
instance of the source regex that arises from the parser's own
output.  (The regex also matches generic, attribute-bearing or
whitespace-variant wrappers; matchWrapperAt models that generality.) -/
def wrappedPattern (i : Nat) : String := renderFence "mermaid" (placeholder i)

/-- The reinjection loop (source lines 87-97): one global regex
replace per recorded block, mutating html in order. -/
def reinject (mermaidBlocks : List MermaidBlock) (html : String) : String :=
  mermaidBlocks.foldl
    (fun h b => String.mk (replaceWrap (placeholder b.index).data
      (mermaidDiv b.code).data h.data))
    html

/-- markdownToHtml (source lines 53-100): parse with the intercepting
highlighter, then reinject containers; returns the fragment and
hasMermaid := mermaidBlocks.length > 0. -/
def markdownToHtml (markdownContent : List Seg) :
    Except String (String × Bool) :=
  match parseGo (0, []) "" markdownContent with
  | Except.error e => Except.error e
  | Except.ok (html, _, mermaidBlocks) =>
      Except.ok (reinject mermaidBlocks html,
                 decide (mermaidBlocks.length > 0))

/-! ## Specification-side views of the parse stage -/

/-- The mermaid fence contents of a document, in source order. -/
def mermaidCodes : List Seg → List String
  | [] => []
  | Seg.raw _ :: rest => mermaidCodes rest
  | Seg.fence lang code :: rest =>
    if lang = "mermaid" then code :: mermaidCodes rest
    else mermaidCodes rest

/-- Chunks of the parsed fragment before reinjection, with mermaid
indices allocated from k. -/
def chunksFrom : Nat → List Seg → List String
  | _, [] => []
  | k, Seg.raw s :: rest => s :: chunksFrom k rest
  | k, Seg.fence lang code :: rest =>
    if lang = "mermaid" then wrappedPattern k :: chunksFrom (k + 1) rest
    else renderFence lang (escapeHtml code) :: chunksFrom k rest

/-- Blocks recorded by the parse stage, indices allocated from k. -/
def blocksFrom : Nat → List Seg → List MermaidBlock
  | _, [] => []
  | k, Seg.raw _ :: rest => blocksFrom k rest
  | k, Seg.fence lang code :: rest =>
    if lang = "mermaid" then ⟨k, code⟩ :: blocksFrom (k + 1) rest
    else blocksFrom k rest

/-- Concatenation of a chunk list. -/
def concatStrs : List String → String
  | [] => ""
  | s :: rest => s ++ concatStrs rest

/-! ## The document assembler (buildHtmlDocument) -/

/-- The mermaid bootstrap script reference (source line 115). -/
def mermaidScriptTag : String :=
  "<script src=\"https://cdn.jsdelivr.net/npm/mermaid@11/dist/mermaid.min.js\"></script>"

/-- The mermaid initialization call (source lines 116-118). -/
def mermaidInitTag : String :=
  "<script>\n         mermaid.initialize(\x7b startOnLoad: true, theme: \x27default\x27 \x7d);\n       </script>"

/-- The conditional bootstrap block (source lines 114-119). -/
def mermaidScriptHtml (hasMermaid : Bool) : String :=
  if hasMermaid then mermaidScriptTag ++ "\n       " ++ mermaidInitTag
  else ""

/-- Document shell before the stylesheet (source lines 121-126). -/
def docShellHead : String :=
  "<!DOCTYPE html>\n<html lang=\"en\">\n<head>\n  <meta charset=\"UTF-8\">\n  <meta name=\"viewport\" content=\"width=device-width, initial-scale=1.0\">\n  <style>"

/-- Document shell between the stylesheet and the bootstrap slot. -/
def docShellMid : String := "</style>\n  "

/-- Document shell between the bootstrap slot and the body. -/
def docShellBody : String := "\n</head>\n<body>\n  <article>"

/-- Document shell after the body (source lines 130-132). -/
def docShellTail : String := "</article>\n</body>\n</html>"

/-- buildHtmlDocument (source lines 113-133). -/
def buildHtmlDocument (bodyHtml cssContent : String) (hasMermaid : Bool) :
    String :=
  docShellHead ++ cssContent ++ docShellMid ++ mermaidScriptHtml hasMermaid ++
    docShellBody ++ bodyHtml ++ docShellTail

/-! ## The render engine (generatePdf)

generatePdf (source lines 138-181) is a straight-line async function:
launch browser, newPage, setContent (waitUntil networkidle0), then --
only if hasMermaid -- waitForFunction on the diagram completion
predicate with a 30000 ms timeout followed by a fixed 500 ms settle
delay, then page.pdf with fixed options, then browser.close().  There
is no try/finally: an exception thrown by any awaited step propagates
out of the function immediately and the steps after it, including
browser.close(), never run.  The model makes each external outcome an
oracle bit and returns the ordered trace of completed calls together
with the result. -/

/-- Oracle for the outcomes of the external (Puppeteer) calls. -/
structure Env where
  launchOk : Bool
  diagramsReady : Bool
  exportOk : Bool
deriving DecidableEq

/-- page.pdf options record (source lines 166-177). -/
structure PdfOpts where
  path : String
  format : String
  marginTop : String
  marginRight : String
  marginBottom : String
  marginLeft : String
  printBackground : Bool
  preferCSSPageSize : Bool
deriving DecidableEq

/-- The constant options generatePdf passes to page.pdf: A4, fixed
margins, backgrounds on, no CSS page-size override; only the output
path varies, and no page dimension is caller-suppliable. -/
def pdfExportOpts (outputPath : String) : PdfOpts :=
  ⟨outputPath, "A4", "20mm", "15mm", "20mm", "15mm", true, false⟩

/-- Observable calls generatePdf makes, in order. -/
inductive Ev
  | launch
  | newPage
  | setContentEv (content : String)
  | waitDiagramsEv (timeoutMs : Nat)
  | settleEv (ms : Nat)
  | exportEv (opts : PdfOpts)
  | closeEv
deriving DecidableEq

/-- Fatal error taxonomy of the render engine. -/
inductive PdfErr
  | renderEngineLaunchFailure
  | diagramRenderTimeout
  | exportFailure
deriving DecidableEq

/-- Trace model of generatePdf (source lines 138-181).  Each branch
mirrors the source control flow; every error return is a propagated
exception, and the trace of such a return ends before the call that
failed completed -- in particular browser.close() appears in a trace
only when every prior step succeeded, because the source has no
try/finally around the browser usage. -/
def generatePdf (env : Env) (htmlContent outputPath : String)
    (hasMermaid : Bool) : List Ev × Except PdfErr String :=
  if !env.launchOk then
    ([], Except.error PdfErr.renderEngineLaunchFailure)
  else
    let evs0 := [Ev.launch, Ev.newPage, Ev.setContentEv htmlContent]
    if hasMermaid then
      if env.diagramsReady then
        let evs1 := evs0 ++ [Ev.waitDiagramsEv 30000, Ev.settleEv 500]
        if env.exportOk then
          (evs1 ++ [Ev.exportEv (pdfExportOpts outputPath), Ev.closeEv],
           Except.ok outputPath)
        else
          (evs1 ++ [Ev.exportEv (pdfExportOpts outputPath)],
           Except.error PdfErr.exportFailure)
      else
        (evs0 ++ [Ev.waitDiagramsEv 30000],
         Except.error PdfErr.diagramRenderTimeout)
    else
      if env.exportOk then
        (evs0 ++ [Ev.exportEv (pdfExportOpts outputPath), Ev.closeEv],
         Except.ok outputPath)
      else
        (evs0 ++ [Ev.exportEv (pdfExportOpts outputPath)],
         Except.error PdfErr.exportFailure)

/-! ## Occurrence and cleanliness toolkit

Reasoning about the global replace needs to locate every position at
which a pattern can match.  mismatchWithin decides that a pattern
disagrees with a text before the text runs out (so no continuation can
complete the match); cleanFor extends that to every start position;
CleanFor is the propositional reading, and occursIn / countOcc are
substring occurrence and leftmost non-overlapping occurrence count. -/

/-- pat disagrees with x at some position before x runs out. -/
def mismatchWithin : List Char → List Char → Bool
  | _, [] => false
  | [], _ :: _ => false
  | p :: ps, c :: cs => if p = c then mismatchWithin ps cs else true

/-- No occurrence of pat can start anywhere inside x, whatever text
follows x. -/
def cleanFor (pat : List Char) : List Char → Bool
  | [] => true
  | c :: cs => mismatchWithin pat (c :: cs) && cleanFor pat cs

/-- Propositional form of cleanFor. -/
def CleanFor (pat x : List Char) : Prop :=
  ∀ i, i < x.length → ∀ rest, ¬ pat.isPrefixOf (List.drop i x ++ rest)

/-- Substring occurrence. -/
def occursIn (pat : List Char) : List Char → Bool
  | [] => pat.isEmpty
  | c :: cs => pat.isPrefixOf (c :: cs) || occursIn pat cs

/-- Leftmost non-overlapping occurrence count, mirroring the scan of
replaceL. -/
def countOcc (pat : List Char) : List Char → Nat
  | [] => 0
  | c :: rest =>
    if _h : 0 < pat.length ∧ pat.isPrefixOf (c :: rest) then
      1 + countOcc pat (List.drop pat.length (c :: rest))
    else
      countOcc pat rest
  termination_by l => l.length
  decreasing_by
  · simp only [List.length_drop, List.length_cons]
    omega
  · simp only [List.length_cons]
    omega

/-! ## Cleanliness facts about the markup the pipeline emits -/

/-- The attribute text of the canonical wrapper: what the regex
wildcard consumes there. -/
def attrsLit : List Char := " class=\"hljs language-mermaid\"".data

/-- Propositional no-match condition used compositionally: starting at
any position of x, the regex with placeholder ph matches no extension
of the remainder of x. -/
def NoMatchIn (ph x : List Char) : Prop :=
  ∀ i, i < x.length → ∀ rest, matchWrapperAt ph (List.drop i x ++ rest) = none

/-! ## Document cleanliness

The reinjection loop regex-matches text the parser generated, and its
replacement string is subject to dollar-pattern substitution.  A
document whose own content (raw HTML passthrough, or a fence body/tag
that reassembles code-block markup around a placeholder token) can
steal a match, and a diagram source whose escaped text contains a
dollar pattern corrupts its own container payload; docCleanB rules
both out, decidably: no match of the regex (for any index) may be
able to start inside a non-diagram chunk, no non-diagram chunk may
contain the container marker, and every diagram container must be
free of dollar patterns. -/

/-- A document whose raw content literally contains the first
placeholder token. -/
def collisionDocC2 : List Seg :=
  [Seg.raw "x<!--MERMAID_PLACEHOLDER_0-->y", Seg.fence "mermaid" "graph TD"]

/-- Settle-event recognizer for trace assertions. -/
def isSettle : Ev → Bool
  | Ev.settleEv _ => true
  | _ => false

/-- Export-options contract: every export call in a trace carries the
fixed options for the conversion's output path. -/
def exportOptsOk (out : String) : Ev → Bool
  | Ev.exportEv o => o == pdfExportOpts out
  | _ => true

theorem digitCharOf_toNat {d : Nat} (h : d < 10) :
    (digitCharOf d).toNat = 48 + d := by
  interval_cases d <;> decide

theorem decVal_append_digit (xs : List Char) (c : Char) :
    decVal (xs ++ [c]) = 10 * decVal xs + (c.toNat - 48) := by
  simp [decVal, List.foldl_append]

theorem decVal_decimal (n : Nat) : decVal (decimal n) = n := by
  induction n using Nat.strong_induction_on with
  | _ n ih =>
    rw [decimal]
    by_cases h : n < 10
    · simp only [if_pos h]
      simp [decVal, digitCharOf_toNat h]
    · simp only [if_neg h]
      rw [decVal_append_digit]
      have hd : n / 10 < n := Nat.div_lt_self (by omega) (by omega)
      rw [ih _ hd, digitCharOf_toNat (Nat.mod_lt _ (by omega))]
      omega

theorem decimal_injective : Function.Injective decimal := by
  intro a b h
  have := decVal_decimal a
  rw [h, decVal_decimal] at this
  omega

theorem decimal_all_digits (n : Nat) : ∀ c ∈ decimal n, isDigitChar c := by
  induction n using Nat.strong_induction_on with
  | _ n ih =>
    rw [decimal]
    by_cases h : n < 10
    · simp only [if_pos h]
      intro c hc
      simp only [List.mem_singleton] at hc
      subst hc
      simp only [isDigitChar, digitCharOf_toNat h]
      omega
    · simp only [if_neg h]
      intro c hc
      rcases List.mem_append.mp hc with h1 | h2
      · exact ih _ (Nat.div_lt_self (by omega) (by omega)) c h1
      · simp only [List.mem_singleton] at h2
        subst h2
        have hm : n % 10 < 10 := Nat.mod_lt _ (by omega)
        simp only [isDigitChar, digitCharOf_toNat hm]
        omega

/-- Two digit strings followed by the same non-digit delimiter and
arbitrary tails: if one is a prefix of the other, the digit strings
are equal.  Used to show distinct placeholder tokens never overlap. -/
theorem digits_delim_prefix_eq (d : Char) (hd : ¬ isDigitChar d) :
    ∀ (xs ys u v : List Char), (∀ c ∈ xs, isDigitChar c) →
      (∀ c ∈ ys, isDigitChar c) →
      (xs ++ d :: u) <+: (ys ++ d :: v) → xs = ys := by
  intro xs
  induction xs with
  | nil =>
    intro ys u v _ hys hpre
    cases ys with
    | nil => rfl
    | cons y ys' =>
      exfalso
      simp only [List.nil_append] at hpre
      rw [List.cons_append, List.cons_prefix_cons] at hpre
      exact hd (hpre.1 ▸ hys y (by simp))
  | cons x xs' ihx =>
    intro ys u v hxs hys hpre
    cases ys with
    | nil =>
      exfalso
      simp only [List.nil_append] at hpre
      rw [List.cons_append, List.cons_prefix_cons] at hpre
      exact hd (hpre.1 ▸ hxs x (by simp))
    | cons y ys' =>
      simp only [List.cons_append, List.cons_prefix_cons] at hpre
      have := ihx ys' u v (fun c hc => hxs c (by simp [hc]))
        (fun c hc => hys c (by simp [hc])) hpre.2
      rw [hpre.1, this]

theorem racL_append (c : Char) (r : List Char) (l₁ l₂ : List Char) :
    racL c r (l₁ ++ l₂) = racL c r l₁ ++ racL c r l₂ := by
  simp [racL]

theorem escChainL_append (l₁ l₂ : List Char) :
    escChainL (l₁ ++ l₂) = escChainL l₁ ++ escChainL l₂ := by
  simp [escChainL, racL_append]

theorem escChainL_single (c : Char) : escChainL [c] = escChar c := by
  by_cases h1 : c = '&'
  · subst h1; decide
  · by_cases h2 : c = '<'
    · subst h2; decide
    · by_cases h3 : c = '>'
      · subst h3; decide
      · by_cases h4 : c = '"'
        · subst h4; decide
        · simp [escChainL, racL, escChar, h1, h2, h3, h4]

theorem escChainL_eq_flatMap (l : List Char) :
    escChainL l = l.flatMap escChar := by
  induction l with
  | nil => decide
  | cons c t ih =>
    have : (c :: t) = [c] ++ t := rfl
    rw [this, escChainL_append, List.flatMap_append, ih, escChainL_single]
    simp

theorem escapeHtml_data (s : String) :
    (escapeHtml s).data = s.data.flatMap escChar := by
  cases s with
  | mk l =>
    show escChainL l = l.flatMap escChar
    exact escChainL_eq_flatMap l

set_option maxHeartbeats 2000000 in
theorem unescL_cons_ne (c : Char) (l : List Char) (h : c ≠ '&') :
    unescL (c :: l) = c :: unescL l := by
  rw [unescL.eq_def]
  split <;> simp_all

theorem unescL_escChar (c : Char) (l : List Char) :
    unescL (escChar c ++ l) = c :: unescL l := by
  by_cases h1 : c = '&'
  · subst h1
    have h : escChar '&' ++ l = '&' :: 'a' :: 'm' :: 'p' :: ';' :: l := rfl
    rw [h]; simp [unescL]
  · by_cases h2 : c = '<'
    · subst h2
      have h : escChar '<' ++ l = '&' :: 'l' :: 't' :: ';' :: l := rfl
      rw [h]; simp [unescL]
    · by_cases h3 : c = '>'
      · subst h3
        have h : escChar '>' ++ l = '&' :: 'g' :: 't' :: ';' :: l := rfl
        rw [h]; simp [unescL]
      · by_cases h4 : c = '"'
        · subst h4
          have h : escChar '"' ++ l = '&' :: 'q' :: 'u' :: 'o' :: 't' :: ';' :: l := rfl
          rw [h]; simp [unescL]
        · simp only [escChar, h1, h2, h3, h4, if_false]
          simpa using unescL_cons_ne c l h1

theorem unescL_flatMap (l : List Char) :
    unescL (l.flatMap escChar) = l := by
  induction l with
  | nil => rfl
  | cons c t ih =>
    simp only [List.flatMap_cons]
    rw [unescL_escChar, ih]

theorem unescapeHtml_escapeHtml (s : String) :
    unescapeHtml (escapeHtml s) = s := by
  cases s with
  | mk l =>
    show String.mk (unescL (escapeHtml ⟨l⟩).data) = ⟨l⟩
    rw [escapeHtml_data]
    show String.mk (unescL (l.flatMap escChar)) = ⟨l⟩
    rw [unescL_flatMap]

theorem escapeHtml_injective : Function.Injective escapeHtml :=
  Function.LeftInverse.injective unescapeHtml_escapeHtml

theorem mismatchWithin_not_pre :
    ∀ (p x : List Char), mismatchWithin p x = true →
      ∀ p₂ x₂, ¬ (p ++ p₂).isPrefixOf (x ++ x₂) := by
  intro p
  induction p with
  | nil =>
    intro x h
    cases x with
    | nil => simp [mismatchWithin] at h
    | cons c cs => simp [mismatchWithin] at h
  | cons a ps ih =>
    intro x h p₂ x₂
    cases x with
    | nil => simp [mismatchWithin] at h
    | cons c cs =>
      simp only [mismatchWithin] at h
      rw [List.isPrefixOf_iff_prefix, List.cons_append, List.cons_append,
        List.cons_prefix_cons]
      by_cases hac : a = c
      · simp only [hac, if_pos rfl] at h
        intro hcon
        have := ih cs h p₂ x₂
        rw [List.isPrefixOf_iff_prefix] at this
        exact this hcon.2
      · intro hcon
        exact hac hcon.1

theorem cleanFor_sound (p : List Char) :
    ∀ x, cleanFor p x = true → CleanFor p x := by
  intro x
  induction x with
  | nil =>
    intro _ i hi
    simp at hi
  | cons c cs ih =>
    intro h i hi rest
    simp only [cleanFor, Bool.and_eq_true] at h
    cases i with
    | zero =>
      simp only [List.drop_zero]
      have := mismatchWithin_not_pre p (c :: cs) h.1 [] rest
      simpa using this
    | succ j =>
      simp only [List.length_cons] at hi
      simp only [List.drop_succ_cons]
      exact ih h.2 j (by omega) rest

theorem CleanFor.append {p x y : List Char}
    (hx : CleanFor p x) (hy : CleanFor p y) : CleanFor p (x ++ y) := by
  intro i hi rest
  by_cases hix : i < x.length
  · have hd : List.drop i (x ++ y) = List.drop i x ++ y :=
      List.drop_append_of_le_length (by omega)
    rw [hd, List.append_assoc]
    exact hx i hix (y ++ rest)
  · have hle : x.length ≤ i := by omega
    have hd : List.drop i (x ++ y) = List.drop (i - x.length) y := by
      rw [List.drop_append_eq_append_drop]
      have : List.drop i x = [] := List.drop_eq_nil_of_le (by omega)
      simp [this]
    rw [hd]
    have hlen : i - x.length < y.length := by
      simp only [List.length_append] at hi
      omega
    exact hy (i - x.length) hlen rest

/-- A pattern extension cannot match where the base pattern cannot. -/
theorem CleanFor.monoPat {p q x : List Char}
    (hx : CleanFor p x) : CleanFor (p ++ q) x := by
  intro i hi rest hcon
  rw [List.isPrefixOf_iff_prefix] at hcon
  have : p <+: List.drop i x ++ rest :=
    List.IsPrefix.trans (List.prefix_append p q) hcon
  have hx' := hx i hi rest
  rw [List.isPrefixOf_iff_prefix] at hx'
  exact hx' this

/-- Builds cleanliness of c :: x from an explicit fact at offset 0 and
cleanliness of the tail. -/
theorem CleanFor.cons {p : List Char} {c : Char} {x : List Char}
    (h0 : ∀ rest, ¬ p.isPrefixOf ((c :: x) ++ rest))
    (hx : CleanFor p x) : CleanFor p (c :: x) := by
  intro i hi rest
  cases i with
  | zero =>
    simpa using h0 rest
  | succ j =>
    simp only [List.drop_succ_cons]
    simp only [List.length_cons] at hi
    exact hx j (by omega) rest

theorem CleanFor.consTail {p : List Char} {c : Char} {x : List Char}
    (h : CleanFor p (c :: x)) : CleanFor p x := by
  intro i hi rest
  have := h (i + 1) (by simpa using Nat.succ_lt_succ hi) rest
  simpa using this

theorem countOcc_nil (p : List Char) : countOcc p [] = 0 := by
  simp [countOcc]

theorem occursIn_append_right {p y : List Char} (h : occursIn p y = true) :
    ∀ x, occursIn p (x ++ y) = true := by
  intro x
  induction x with
  | nil => simpa using h
  | cons c cs ih =>
    rw [List.cons_append, occursIn]
    simp only [Bool.or_eq_true]
    exact Or.inr ih

theorem occursIn_append_left {p : List Char} :
    ∀ {x : List Char}, occursIn p x = true → ∀ y, occursIn p (x ++ y) = true := by
  intro x
  induction x with
  | nil =>
    intro h y
    simp only [occursIn, List.isEmpty_iff] at h
    subst h
    cases y with
    | nil => rfl
    | cons c cs =>
      rw [List.nil_append, occursIn]
      simp [List.isPrefixOf_iff_prefix]
  | cons c cs ih =>
    intro h y
    rw [occursIn] at h
    simp only [Bool.or_eq_true] at h
    rw [List.cons_append, occursIn]
    simp only [Bool.or_eq_true]
    rcases h with h | h
    · left
      rw [List.isPrefixOf_iff_prefix] at h ⊢
      exact List.IsPrefix.trans h (by rw [← List.cons_append]; exact List.prefix_append _ y)
    · right
      exact ih h y

theorem occursIn_false_of_clean {p : List Char} (hp : p ≠ []) :
    ∀ {x : List Char}, CleanFor p x → occursIn p x = false := by
  intro x
  induction x with
  | nil =>
    intro _
    simpa [occursIn, List.isEmpty_iff] using hp
  | cons c cs ih =>
    intro h
    rw [occursIn]
    have h0 := h 0 (by simp) []
    simp only [List.drop_zero, List.append_nil] at h0
    have hb : p.isPrefixOf (c :: cs) = false := by
      cases hx : p.isPrefixOf (c :: cs)
      · rfl
      · exact absurd hx h0
    rw [hb, ih (CleanFor.consTail h)]
    rfl

theorem countOcc_append_clean {p x : List Char} (hx : CleanFor p x) :
    ∀ s, countOcc p (x ++ s) = countOcc p s := by
  induction x with
  | nil => intro s; rfl
  | cons c cs ih =>
    intro s
    rw [List.cons_append, countOcc]
    have hno : ¬ (0 < p.length ∧ p.isPrefixOf (c :: (cs ++ s))) := by
      rintro ⟨-, hpre⟩
      have := hx 0 (by simp) s
      simp only [List.drop_zero, List.cons_append] at this
      exact this hpre
    rw [dif_neg hno]
    exact ih (CleanFor.consTail hx) s

theorem countOcc_of_clean {p x : List Char} (hx : CleanFor p x) :
    countOcc p x = 0 := by
  have := countOcc_append_clean hx []
  rw [List.append_nil] at this
  rw [this, countOcc_nil]

theorem concatStrs_cons (s : String) (rest : List String) :
    concatStrs (s :: rest) = s ++ concatStrs rest := rfl

theorem renderFence_mermaid (inner : String) :
    renderFence "mermaid" inner = wrapPre ++ inner ++ wrapSuf := by
  rw [renderFence, if_neg (by decide : ¬ ("mermaid" : String) = "")]
  have : ("<pre><code class=\"hljs language-" ++ "mermaid" ++ "\">" : String) =
      wrapPre := by rfl
  rw [show ("<pre><code class=\"hljs language-" ++ "mermaid" ++ "\">" ++ inner ++ wrapSuf : String)
      = ("<pre><code class=\"hljs language-" ++ "mermaid" ++ "\">") ++ inner ++ wrapSuf from by
        simp [String.append_assoc], this]

/-- The canonical wrapper split into the marked wrapper prefix, the
placeholder, and the wrapper suffix. -/
theorem wrappedPattern_decomp (i : Nat) :
    (wrappedPattern i).data =
      wrapPre.data ++ ((placeholder i).data ++ wrapSuf.data) := by
  rw [wrappedPattern, renderFence_mermaid]
  simp [String.data_append]

theorem wrappedPattern_ne_nil (i : Nat) : (wrappedPattern i).data ≠ [] := by
  rw [wrappedPattern_decomp]
  simp [wrapPre]

/-- parseGo computes the chunk concatenation and the recorded blocks,
and never raises: the lang guard in the highlight callback keeps
hljsHighlight away from unregistered languages. -/
theorem parseGo_eq :
    ∀ (doc : List Seg) (k : Nat) (bs : List MermaidBlock) (acc : String),
      parseGo (k, bs) acc doc =
        Except.ok (acc ++ concatStrs (chunksFrom k doc),
                   k + (mermaidCodes doc).length,
                   bs ++ blocksFrom k doc) := by
  intro doc
  induction doc with
  | nil =>
    intro k bs acc
    simp [parseGo, chunksFrom, concatStrs, mermaidCodes, blocksFrom]
  | cons seg rest ih =>
    intro k bs acc
    cases seg with
    | raw s =>
      rw [parseGo, ih]
      simp [chunksFrom, mermaidCodes, blocksFrom, concatStrs_cons,
        String.append_assoc]
    | fence lang code =>
      by_cases hm : lang = "mermaid"
      · subst hm
        rw [parseGo]
        show (match highlightFn (k, bs) code "mermaid" with
          | (_, Except.error e) => Except.error e
          | (st', Except.ok v) =>
              parseGo st' (acc ++ renderFence "mermaid" v) rest) = _
        rw [show highlightFn (k, bs) code "mermaid" =
            ((k + 1, bs ++ [⟨k, code⟩]), Except.ok (placeholder k)) from by
          simp [highlightFn]]
        dsimp only
        rw [ih]
        refine congrArg Except.ok ?_
        refine Prod.ext ?_ (Prod.ext ?_ ?_)
        · rw [show chunksFrom k (Seg.fence "mermaid" code :: rest)
              = wrappedPattern k :: chunksFrom (k + 1) rest from by
            simp [chunksFrom]]
          rw [concatStrs_cons, wrappedPattern, String.append_assoc]
        · rw [show mermaidCodes (Seg.fence "mermaid" code :: rest)
              = code :: mermaidCodes rest from by simp [mermaidCodes]]
          simp only [List.length_cons]
          omega
        · rw [show blocksFrom k (Seg.fence "mermaid" code :: rest)
              = (⟨k, code⟩ : MermaidBlock) :: blocksFrom (k + 1) rest from by
            simp [blocksFrom]]
          simp [List.append_assoc]
      · rw [parseGo]
        have hval : highlightFn (k, bs) code lang =
            ((k, bs), Except.ok (escapeHtml code)) := by
          rw [highlightFn, if_neg hm]
          by_cases hr : lang ≠ "" ∧ hljsGetLanguage lang
          · rw [if_pos hr, hljsHighlight, if_pos hr.2]
          · rw [if_neg hr, hljsHighlightAuto]
        show (match highlightFn (k, bs) code lang with
          | (_, Except.error e) => Except.error e
          | (st', Except.ok v) =>
              parseGo st' (acc ++ renderFence lang v) rest) = _
        rw [hval]
        dsimp only
        rw [ih]
        simp [chunksFrom, mermaidCodes, blocksFrom, hm, concatStrs_cons,
          String.append_assoc]

/-- The parse stage never fails on any document. -/
theorem parseGo_total (doc : List Seg) :
    ∃ v, parseGo (0, []) "" doc = Except.ok v := by
  exact ⟨_, parseGo_eq doc 0 [] ""⟩

theorem blocksFrom_map_index :
    ∀ (doc : List Seg) (k : Nat),
      (blocksFrom k doc).map MermaidBlock.index =
        List.range' k (mermaidCodes doc).length := by
  intro doc
  induction doc with
  | nil => intro k; simp [blocksFrom, mermaidCodes]
  | cons seg rest ih =>
    intro k
    cases seg with
    | raw s => simp [blocksFrom, mermaidCodes, ih]
    | fence lang code =>
      by_cases hm : lang = "mermaid"
      · simp [blocksFrom, mermaidCodes, hm, ih, List.range'_succ]
      · simp [blocksFrom, mermaidCodes, hm, ih]

theorem blocksFrom_map_code :
    ∀ (doc : List Seg) (k : Nat),
      (blocksFrom k doc).map MermaidBlock.code = mermaidCodes doc := by
  intro doc
  induction doc with
  | nil => intro k; simp [blocksFrom, mermaidCodes]
  | cons seg rest ih =>
    intro k
    cases seg with
    | raw s => simp [blocksFrom, mermaidCodes, ih]
    | fence lang code =>
      by_cases hm : lang = "mermaid"
      · simp [blocksFrom, mermaidCodes, hm, ih]
      · simp [blocksFrom, mermaidCodes, hm, ih]

theorem blocksFrom_length (doc : List Seg) (k : Nat) :
    (blocksFrom k doc).length = (mermaidCodes doc).length := by
  have := blocksFrom_map_code doc k
  calc (blocksFrom k doc).length
      = ((blocksFrom k doc).map MermaidBlock.code).length := by simp
    _ = (mermaidCodes doc).length := by rw [this]

theorem CleanFor_nil (p : List Char) : CleanFor p [] := by
  intro i hi
  simp at hi

/-! ## Concrete evaluations of the numeral-dependent markup -/

theorem decimal_zero : decimal 0 = ['0'] := by
  rw [decimal]
  norm_num
  rfl

theorem placeholder_zero :
    placeholder 0 = "<!--MERMAID_PLACEHOLDER_0-->" := by
  rw [placeholder, decimal_zero]
  rfl

theorem wrappedPattern_zero :
    wrappedPattern 0 =
      "<pre><code class=\"hljs language-mermaid\"><!--MERMAID_PLACEHOLDER_0-->\n</code></pre>" := by
  rw [wrappedPattern, renderFence_mermaid, placeholder_zero]
  rfl

/-! ## Placeholder determinism and injectivity -/

theorem placeholder_data (i : Nat) :
    (placeholder i).data = phPre.data ++ (decimal i ++ "-->".data) := by
  rw [placeholder]
  simp [String.data_append]

theorem placeholder_injective : Function.Injective placeholder := by
  intro a b h
  have hd := congrArg String.data h
  rw [placeholder_data, placeholder_data] at hd
  have h2 : decimal a ++ "-->".data = decimal b ++ "-->".data :=
    List.append_cancel_left hd
  have harr : "-->".data = '-' :: List.drop 1 "-->".data := by decide
  rw [harr] at h2
  have : decimal a = decimal b := by
    refine digits_delim_prefix_eq '-' (by rw [isDigitChar]; decide)
      (decimal a) (decimal b) (List.drop 1 "-->".data) (List.drop 1 "-->".data)
      (decimal_all_digits a) (decimal_all_digits b) ?_
    rw [h2]
  exact decimal_injective this

theorem isPrefixOf_append_ext {a b : List Char} (h : a.isPrefixOf b = true)
    (r : List Char) : a.isPrefixOf (b ++ r) = true := by
  rw [List.isPrefixOf_iff_prefix] at h ⊢
  exact List.IsPrefix.trans h (List.prefix_append b r)

theorem takeWhile_append_stop {P : Char → Bool} {l1 : List Char}
    (h1 : ∀ c ∈ l1, P c = true) {x : Char} (hx : P x = false)
    (l2 : List Char) :
    (l1 ++ x :: l2).takeWhile P = l1 ∧
      (l1 ++ x :: l2).dropWhile P = x :: l2 := by
  induction l1 with
  | nil =>
    refine ⟨?_, ?_⟩ <;>
      simp [List.takeWhile_cons, List.dropWhile_cons, hx]
  | cons c cs ih =>
    have hc : P c = true := h1 c (by simp)
    have ih' := ih (fun d hd => h1 d (by simp [hd]))
    refine ⟨?_, ?_⟩ <;>
      simp [List.takeWhile_cons, List.dropWhile_cons, hc, ih'.1, ih'.2]

set_option maxHeartbeats 2000000 in
theorem getSubst_cons_ne (m p q : List Char) (c : Char) (l : List Char)
    (h : c ≠ '$') :
    getSubst m p q (c :: l) = c :: getSubst m p q l := by
  rw [getSubst.eq_def]
  split <;> simp_all

set_option maxHeartbeats 2000000 in
theorem getSubst_dollar_other (m p q : List Char) (c : Char) (l : List Char)
    (h1 : c ≠ '$') (h2 : c ≠ '&') (h3 : c ≠ '`') (h4 : c ≠ '\'') :
    getSubst m p q ('$' :: c :: l) = '$' :: getSubst m p q (c :: l) := by
  rw [getSubst.eq_def]
  split <;> simp_all
  rename_i heq
  exact heq.1.symm

set_option maxHeartbeats 2000000 in
theorem substIdOn_cons_ne (c : Char) (l : List Char) (h : c ≠ '$') :
    substIdOn (c :: l) = substIdOn l := by
  rw [substIdOn.eq_def]
  split <;> simp_all

set_option maxHeartbeats 2000000 in
theorem substIdOn_dollar_other (c : Char) (l : List Char)
    (h1 : c ≠ '$') (h2 : c ≠ '&') (h3 : c ≠ '`') (h4 : c ≠ '\'') :
    substIdOn ('$' :: c :: l) = substIdOn (c :: l) := by
  rw [substIdOn.eq_def]
  split <;> simp_all

/-- On a replacement text with no dollar pattern, GetSubstitution is
the identity, whatever the match and its surroundings. -/
theorem getSubst_id (m p q : List Char) :
    ∀ l, substIdOn l = true → getSubst m p q l = l := by
  intro l
  induction l with
  | nil => intro _; rfl
  | cons c rest ih =>
    intro h
    by_cases hc : c = '$'
    · subst hc
      cases rest with
      | nil =>
        simp [getSubst]
      | cons d r =>
        by_cases hd1 : d = '$'
        · subst hd1; simp [substIdOn] at h
        · by_cases hd2 : d = '&'
          · subst hd2; simp [substIdOn] at h
          · by_cases hd3 : d = '`'
            · subst hd3; simp [substIdOn] at h
            · by_cases hd4 : d = '\''
              · subst hd4; simp [substIdOn] at h
              · rw [getSubst_dollar_other m p q d r hd1 hd2 hd3 hd4]
                rw [substIdOn_dollar_other d r hd1 hd2 hd3 hd4] at h
                rw [ih h]
    · rw [getSubst_cons_ne m p q c rest hc, substIdOn_cons_ne c rest hc] at *
      rw [ih h]

/-! ## Anatomy of the reinjection regex -/

theorem litClose_cons : litClose = '<' :: List.drop 1 litClose := by decide

theorem phPre_cons : phPre.data = '<' :: List.drop 1 phPre.data := by decide

/-- The canonical wrapper prefix is the regex opening literal, the
attribute text the wildcard consumes, and the closing angle. -/
theorem wrapPre_split : wrapPre.data = litPreCode ++ (attrsLit ++ ['>']) := by
  decide

theorem wrapSuf_split : wrapSuf.data = '\n' :: litClose := by decide

theorem ws_scan_lt {t s : List Char} (h : t = '<' :: s) :
    List.takeWhile isWsChar t = [] ∧ List.dropWhile isWsChar t = t := by
  constructor
  · rw [h]
    exact List.takeWhile_cons_of_neg (by decide)
  · rw [h]
    exact List.dropWhile_cons_of_neg (by decide)

/-- The attribute wildcard scan over the canonical attribute text
stops exactly at the closing angle. -/
theorem attrs_scan (T : List Char) :
    List.takeWhile (fun c => c ≠ '>') (attrsLit ++ ('>' :: T)) = attrsLit ∧
    List.dropWhile (fun c => c ≠ '>') (attrsLit ++ ('>' :: T)) = '>' :: T :=
  takeWhile_append_stop (by decide) (by decide) T

theorem placeholder_head (i : Nat) (t : List Char) :
    (placeholder i).data ++ t
      = '<' :: (List.drop 1 phPre.data ++ ((decimal i ++ "-->".data) ++ t)) := by
  conv_lhs => rw [placeholder_data, phPre_cons]
  simp [List.append_assoc]

/-- The regex tail matches its own canonical instance: the placeholder
literal, one newline of whitespace, the closing literal. -/
theorem matchTail_self (ph rest : List Char) :
    matchTail ph (ph ++ ('\n' :: (litClose ++ rest))) = some (['\n'], rest) := by
  have hlc : litClose ++ rest = '<' :: (List.drop 1 litClose ++ rest) := by
    conv_lhs => rw [litClose_cons]
    rfl
  have h1 : ph.isPrefixOf (ph ++ ('\n' :: (litClose ++ rest))) = true :=
    List.isPrefixOf_iff_prefix.mpr (List.prefix_append _ _)
  have h2 : (ph ++ ('\n' :: (litClose ++ rest))).drop ph.length
      = '\n' :: (litClose ++ rest) := List.drop_left _ _
  have h3 : List.takeWhile isWsChar ('\n' :: (litClose ++ rest)) = ['\n'] := by
    rw [List.takeWhile_cons_of_pos (by decide)]
    rw [hlc, List.takeWhile_cons_of_neg (by decide)]
  have h4 : List.dropWhile isWsChar ('\n' :: (litClose ++ rest))
      = litClose ++ rest := by
    rw [List.dropWhile_cons_of_pos (by decide)]
    rw [hlc]
    exact List.dropWhile_cons_of_neg (by decide)
  have h5 : litClose.isPrefixOf (litClose ++ rest) = true :=
    List.isPrefixOf_iff_prefix.mpr (List.prefix_append _ _)
  have h6 : (litClose ++ rest).drop litClose.length = rest := List.drop_left _ _
  rw [matchTail, if_pos h1]
  simp only [h2, h3, h4]
  rw [if_pos h5, h6]

theorem matchWrapperAt_shape_some (ph T ws2 a : List Char)
    (h1 : List.takeWhile isWsChar T = [])
    (h2 : List.dropWhile isWsChar T = T)
    (hmt : matchTail ph T = some (ws2, a)) :
    matchWrapperAt ph (litPreCode ++ (attrsLit ++ ('>' :: T)))
      = some (litPreCode ++ (attrsLit ++ ('>' :: (ph ++ (ws2 ++ litClose)))),
          a) := by
  rw [matchWrapperAt,
    if_pos (List.isPrefixOf_iff_prefix.mpr (List.prefix_append _ _))]
  simp only [List.drop_left, (attrs_scan T).1, (attrs_scan T).2, h1, h2, hmt,
    List.nil_append]

/-- The canonical wrapper followed by anything, decomposed along the
regex structure. -/
theorem wrapped_decomp2 (i : Nat) (rest : List Char) :
    (wrappedPattern i).data ++ rest =
      litPreCode ++ (attrsLit ++ ('>' ::
        ((placeholder i).data ++ ('\n' :: (litClose ++ rest))))) := by
  rw [wrappedPattern_decomp, wrapPre_split, wrapSuf_split]
  simp [List.append_assoc]

/-- The regex for index i matches its own canonical wrapper at the
head, consuming exactly the wrapper. -/
theorem matchWrapperAt_self (i : Nat) (rest : List Char) :
    matchWrapperAt (placeholder i).data ((wrappedPattern i).data ++ rest)
      = some ((wrappedPattern i).data, rest) := by
  rw [wrapped_decomp2]
  have hscan := ws_scan_lt (placeholder_head i ('\n' :: (litClose ++ rest)))
  rw [matchWrapperAt_shape_some _ _ ['\n'] rest hscan.1 hscan.2
    (matchTail_self (placeholder i).data rest)]
  have hA : litPreCode ++ (attrsLit ++ ('>' ::
        ((placeholder i).data ++ (['\n'] ++ litClose))))
      = (wrappedPattern i).data := by
    rw [wrappedPattern_decomp, wrapPre_split, wrapSuf_split]
    simp [List.append_assoc]
  rw [hA]

theorem NoMatchIn_nil (ph : List Char) : NoMatchIn ph [] := by
  intro i hi
  simp at hi

theorem NoMatchIn_consTail {ph : List Char} {c : Char} {x : List Char}
    (h : NoMatchIn ph (c :: x)) : NoMatchIn ph x := by
  intro i hi rest
  have := h (i + 1) (by simp only [List.length_cons]; omega) rest
  simpa using this

theorem NoMatchIn_head {ph : List Char} {c : Char} {x : List Char}
    (h : NoMatchIn ph (c :: x)) :
    ∀ rest, matchWrapperAt ph (c :: (x ++ rest)) = none := by
  intro rest
  have := h 0 (by simp) rest
  simpa using this

theorem replaceWrapFuel_nil (ph repl : List Char) (fuel : Nat)
    (pre : List Char) : replaceWrapFuel ph repl fuel pre [] = [] := by
  cases fuel with
  | zero => rfl
  | succ f => rfl

theorem replaceWrapFuel_cons (ph repl : List Char) (fuel : Nat)
    (pre : List Char) (c : Char) (rest : List Char) :
    replaceWrapFuel ph repl (fuel + 1) pre (c :: rest) =
      match matchWrapperAt ph (c :: rest) with
      | some (m, a) =>
          getSubst m pre a repl ++ replaceWrapFuel ph repl fuel (pre ++ m) a
      | none => c :: replaceWrapFuel ph repl fuel (pre ++ [c]) rest := rfl

/-- The scan copies a text inside which nothing matches. -/
theorem replaceWrapFuel_copy (ph repl : List Char) :
    ∀ (y : List Char) (fuel : Nat) (pre : List Char),
      y.length ≤ fuel → NoMatchIn ph y →
      replaceWrapFuel ph repl fuel pre y = y := by
  intro y
  induction y with
  | nil => intro fuel pre _ _; exact replaceWrapFuel_nil ph repl fuel pre
  | cons c cs ih =>
    intro fuel pre hf hn
    cases fuel with
    | zero => simp only [List.length_cons] at hf; omega
    | succ f =>
      rw [replaceWrapFuel_cons]
      rw [show matchWrapperAt ph (c :: cs) = none from by
        have hh := NoMatchIn_head hn []
        simpa using hh]
      rw [ih f (pre ++ [c]) (by simp only [List.length_cons] at hf; omega)
        (NoMatchIn_consTail hn)]

/-- The scan walks over a match-free prefix unchanged, carrying it
into the before-text accumulator. -/
theorem replaceWrapFuel_skip (ph repl : List Char) :
    ∀ (x y : List Char) (fuel : Nat) (pre : List Char),
      x.length + y.length ≤ fuel → NoMatchIn ph x →
      replaceWrapFuel ph repl fuel pre (x ++ y)
        = x ++ replaceWrapFuel ph repl (fuel - x.length) (pre ++ x) y := by
  intro x
  induction x with
  | nil =>
    intro y fuel pre _ _
    simp
  | cons c cs ih =>
    intro y fuel pre hf hn
    cases fuel with
    | zero => simp only [List.length_cons] at hf; omega
    | succ f =>
      rw [List.cons_append, replaceWrapFuel_cons]
      rw [show matchWrapperAt ph (c :: (cs ++ y)) = none from
        NoMatchIn_head hn y]
      rw [ih y f (pre ++ [c])
        (by simp only [List.length_cons] at hf; omega)
        (NoMatchIn_consTail hn)]
      rw [show (pre ++ [c]) ++ cs = pre ++ (c :: cs) from by simp]
      rw [show (f + 1) - (c :: cs).length = f - cs.length from by
        simp only [List.length_cons]; omega]
      rfl

theorem replaceWrapFuel_hit (ph repl : List Char) (fuel : Nat)
    (pre m a s : List Char) (hs : s ≠ [])
    (hm : matchWrapperAt ph s = some (m, a)) :
    replaceWrapFuel ph repl (fuel + 1) pre s =
      getSubst m pre a repl ++ replaceWrapFuel ph repl fuel (pre ++ m) a := by
  obtain ⟨c, cs, rfl⟩ := List.exists_cons_of_ne_nil hs
  rw [replaceWrapFuel_cons, hm]

/-- One global replace on a subject that is a match-free prefix, one
canonical wrapper, and a match-free suffix: the wrapper alone is
rewritten, and a dollar-free replacement is spliced verbatim. -/
theorem replaceWrap_step (i : Nat) (repl X Y : List Char)
    (hrepl : substIdOn repl = true)
    (hX : NoMatchIn (placeholder i).data X)
    (hY : NoMatchIn (placeholder i).data Y) :
    replaceWrap (placeholder i).data repl
        (X ++ ((wrappedPattern i).data ++ Y))
      = X ++ (repl ++ Y) := by
  have hWpos : 0 < (wrappedPattern i).data.length :=
    List.length_pos.mpr (wrappedPattern_ne_nil i)
  have hne : (wrappedPattern i).data ++ Y ≠ [] := by
    intro hc
    exact wrappedPattern_ne_nil i (List.append_eq_nil.mp hc).1
  rw [replaceWrap]
  rw [replaceWrapFuel_skip (placeholder i).data repl X
    ((wrappedPattern i).data ++ Y)
    (X ++ ((wrappedPattern i).data ++ Y)).length []
    (by simp [List.length_append]) hX]
  rw [List.nil_append]
  rw [show (X ++ ((wrappedPattern i).data ++ Y)).length - X.length
      = ((wrappedPattern i).data.length + Y.length - 1) + 1 from by
    simp only [List.length_append]
    omega]
  rw [replaceWrapFuel_hit (placeholder i).data repl
    ((wrappedPattern i).data.length + Y.length - 1) X
    (wrappedPattern i).data Y ((wrappedPattern i).data ++ Y)
    hne (matchWrapperAt_self i Y)]
  rw [getSubst_id (wrappedPattern i).data X Y repl hrepl]
  rw [replaceWrapFuel_copy (placeholder i).data repl Y
    ((wrappedPattern i).data.length + Y.length - 1)
    (X ++ (wrappedPattern i).data) (by omega) hY]

/-- With no mermaid fence recorded, reinjection is a fold over an
empty block list and the fragment passes through untouched. -/
theorem markdownToHtml_no_mermaid (doc : List Seg)
    (h : mermaidCodes doc = []) :
    markdownToHtml doc =
      Except.ok (concatStrs (chunksFrom 0 doc), false) := by
  rw [markdownToHtml, parseGo_eq]
  dsimp only
  have hb : blocksFrom 0 doc = [] := by
    have := blocksFrom_length doc 0
    rw [h] at this
    exact List.length_eq_zero.mp this
  rw [show ([] : List MermaidBlock) ++ blocksFrom 0 doc = blocksFrom 0 doc from by
    simp]
  rw [hb, reinject]
  rw [String.empty_append]
  simp [h]

theorem occursIn_of_pre {p s : List Char} (hp : p ≠ [])
    (h : p.isPrefixOf s = true) : occursIn p s = true := by
  cases s with
  | nil =>
    obtain ⟨q, qs, hq⟩ := List.exists_cons_of_ne_nil hp
    subst hq
    simp [List.isPrefixOf_iff_prefix] at h
  | cons c cs =>
    rw [occursIn, h]
    rfl

/-! ## Assembly: bootstrap presence and absence -/

theorem buildHtmlDocument_data (bodyHtml cssContent : String) (f : Bool) :
    (buildHtmlDocument bodyHtml cssContent f).data =
      docShellHead.data ++ (cssContent.data ++ (docShellMid.data ++
        ((mermaidScriptHtml f).data ++ (docShellBody.data ++
          (bodyHtml.data ++ docShellTail.data))))) := by
  rw [buildHtmlDocument]
  simp [String.data_append, List.append_assoc]

theorem mermaidScriptTag_ne_nil : mermaidScriptTag.data ≠ [] := by decide

/-- The bootstrap script reference appears in any document assembled
with hasMermaid = true. -/
theorem bootstrap_present (bodyHtml cssContent : String) :
    occursIn mermaidScriptTag.data
      (buildHtmlDocument bodyHtml cssContent true).data = true := by
  rw [buildHtmlDocument_data]
  apply occursIn_append_right
  apply occursIn_append_right
  apply occursIn_append_right
  apply occursIn_append_left
  apply occursIn_of_pre mermaidScriptTag_ne_nil
  rw [show (mermaidScriptHtml true).data
      = mermaidScriptTag.data ++ ("\n       " ++ mermaidInitTag).data from by
    rw [mermaidScriptHtml]
    simp [String.data_append]]
  rw [List.isPrefixOf_iff_prefix]
  exact List.prefix_append _ _

theorem clean_tag_head : CleanFor mermaidScriptTag.data docShellHead.data :=
  cleanFor_sound _ _ (by decide)

theorem clean_tag_mid : CleanFor mermaidScriptTag.data docShellMid.data :=
  cleanFor_sound _ _ (by decide)

theorem clean_tag_body : CleanFor mermaidScriptTag.data docShellBody.data :=
  cleanFor_sound _ _ (by decide)

theorem clean_tag_tail : CleanFor mermaidScriptTag.data docShellTail.data :=
  cleanFor_sound _ _ (by decide)

/-- The bootstrap script reference appears nowhere in a document
assembled with hasMermaid = false, provided neither the stylesheet nor
the body fragment smuggles the script text in. -/
theorem bootstrap_absent (bodyHtml cssContent : String)
    (hcss : cleanFor mermaidScriptTag.data cssContent.data = true)
    (hbody : cleanFor mermaidScriptTag.data bodyHtml.data = true) :
    occursIn mermaidScriptTag.data
      (buildHtmlDocument bodyHtml cssContent false).data = false := by
  rw [buildHtmlDocument_data]
  apply occursIn_false_of_clean mermaidScriptTag_ne_nil
  refine CleanFor.append clean_tag_head
    (CleanFor.append (cleanFor_sound _ _ hcss)
      (CleanFor.append clean_tag_mid ?_))
  rw [show (mermaidScriptHtml false).data = [] from by rw [mermaidScriptHtml]; rfl]
  rw [List.nil_append]
  exact CleanFor.append clean_tag_body
    (CleanFor.append (cleanFor_sound _ _ hbody) clean_tag_tail)

/-! ## Claims -/

/-- C1: the specification claims the headless browser acquired by
generatePdf is released on every exit path, including diagram-render
timeout.  The code disagrees: generatePdf has no try/finally, so when
page.waitForFunction rejects after its 30000 ms timeout the error
propagates and browser.close() is never reached.  This theorem
evaluates the model at that failing input: the browser was launched,
the result is the timeout error, and no close call appears in the
trace. -/
theorem c1_browser_leaked_on_timeout :
    (generatePdf ⟨true, false, true⟩ "<h1>t</h1>" "out.pdf" true).2
        = Except.error PdfErr.diagramRenderTimeout ∧
    Ev.launch ∈ (generatePdf ⟨true, false, true⟩ "<h1>t</h1>" "out.pdf" true).1 ∧
    Ev.closeEv ∉ (generatePdf ⟨true, false, true⟩ "<h1>t</h1>" "out.pdf" true).1 := by
  refine ⟨rfl, ?_, ?_⟩
  · simp [generatePdf]
  · simp [generatePdf]

/-- C2 counterexample: placeholder tokens can collide with literal
content of the source document.  This document's raw content contains,
verbatim, the exact token the conversion allocates for its single
diagram block (index 0), refuting collision-freedom over arbitrary
documents. -/
theorem c2_counterexample :
    (mermaidCodes collisionDocC2).length = 1 ∧
    blocksFrom 0 collisionDocC2 = [⟨0, "graph TD"⟩] ∧
    occursIn (placeholder 0).data
      "x<!--MERMAID_PLACEHOLDER_0-->y".data = true := by
  refine ⟨by decide, by simp [collisionDocC2, blocksFrom], ?_⟩
  rw [placeholder_zero]
  decide

/-- C2 (amended): placeholder tokens are deterministic (a function of
the block index alone) and pairwise distinct, and within one
conversion the token-block mapping is bijective: the recorded blocks
carry exactly the indices 0..N-1 in order and their tokens are
pairwise distinct.  (Collision-freedom against arbitrary literal
document content does not hold; see the counterexample.) -/
theorem c2_tokens_deterministic_bijective (doc : List Seg) (i j : Nat) :
    (placeholder i = placeholder j ↔ i = j) ∧
    (blocksFrom 0 doc).map MermaidBlock.index
      = List.range (mermaidCodes doc).length ∧
    ((blocksFrom 0 doc).map (fun b => placeholder b.index)).Nodup := by
  refine ⟨⟨fun h => placeholder_injective h, fun h => by rw [h]⟩, ?_, ?_⟩
  · rw [blocksFrom_map_index, List.range_eq_range']
  · have hm : (blocksFrom 0 doc).map (fun b => placeholder b.index)
        = ((blocksFrom 0 doc).map MermaidBlock.index).map placeholder := by
      rw [List.map_map]
      rfl
    rw [hm, blocksFrom_map_index, ← List.range_eq_range']
    exact List.Nodup.map placeholder_injective (List.nodup_range _)

/-- C4 (amended): provided the replacement text -- the container
holding the block's escaped source -- contains no JS dollar pattern,
the global replace splices it verbatim over the canonical wrapper, so
the container payload is the raw source HTML-escaped exactly once
(ampersand, both angle brackets and the double quote rewritten once
each), never doubly escaped.  Without that proviso the claim is false:
String.replace substitutes dollar patterns in the replacement (see the
counterexample). -/
theorem c4_container_payload_escaped_once (code : String)
    (hs : substIdOn (mermaidDiv code).data = true) (i : Nat) :
    replaceWrap (placeholder i).data (mermaidDiv code).data
        (wrappedPattern i).data = (mermaidDiv code).data ∧
    mermaidDiv code = containerPre ++ escapeHtml code ++ containerSuf ∧
    escapeHtml "&" = "&amp;" ∧ escapeHtml "<" = "&lt;" ∧
    escapeHtml ">" = "&gt;" ∧ escapeHtml "\"" = "&quot;" ∧
    (escapeHtml code ≠ code →
      mermaidDiv code ≠
        containerPre ++ escapeHtml (escapeHtml code) ++ containerSuf) := by
  refine ⟨?_, rfl, by decide, by decide, by decide, by decide, ?_⟩
  · have h := replaceWrap_step i (mermaidDiv code).data [] [] hs
      (NoMatchIn_nil _) (NoMatchIn_nil _)
    simpa using h
  · intro hne hcon
    have hd := congrArg String.data hcon
    rw [mermaidDiv, containerPre] at hd
    simp only [String.data_append] at hd
    rw [List.append_assoc, List.append_assoc] at hd
    have h1 := List.append_cancel_left hd
    have h2 : (escapeHtml code).data = (escapeHtml (escapeHtml code)).data :=
      List.append_cancel_right h1
    have h3 : escapeHtml code = escapeHtml (escapeHtml code) := String.ext h2
    have h4 : code = escapeHtml code := escapeHtml_injective h3
    exact hne h4.symm

theorem c4_witness :
    substIdOn (mermaidDiv "<").data = true ∧
    (replaceWrap (placeholder 0).data (mermaidDiv "<").data
        (wrappedPattern 0).data = (mermaidDiv "<").data ∧
      mermaidDiv "<" = containerPre ++ escapeHtml "<" ++ containerSuf ∧
      escapeHtml "&" = "&amp;" ∧ escapeHtml "<" = "&lt;" ∧
      escapeHtml ">" = "&gt;" ∧ escapeHtml "\"" = "&quot;" ∧
      (escapeHtml "<" ≠ "<" →
        mermaidDiv "<" ≠
          containerPre ++ escapeHtml (escapeHtml "<") ++ containerSuf)) :=
  ⟨by decide, c4_container_payload_escaped_once "<" (by decide) 0⟩

/-- C4 counterexample: String.replace interprets dollar patterns in
the replacement string.  A diagram source of two dollars escapes to
itself, but the replace collapses the pair: the container payload
comes out as a single dollar, not the once-escaped source, so the
reinjected container differs from the one the claim promises. -/
theorem c4_counterexample :
    escapeHtml "$$" = "$$" ∧
    replaceWrap (placeholder 0).data (mermaidDiv "$$").data
        (wrappedPattern 0).data
      = (containerPre ++ "$" ++ containerSuf).data ∧
    containerPre ++ "$" ++ containerSuf ≠ mermaidDiv "$$" := by
  refine ⟨by decide, ?_, by decide⟩
  rw [placeholder_zero, wrappedPattern_zero]
  decide

/-- C6: the assembled document carries the diagram bootstrap if and
only if hasMermaid is true: with the flag set the script reference
occurs in the output; with it clear the script reference occurs
nowhere (provided neither stylesheet nor body smuggles the script text
in themselves); and a document with zero mermaid fences converts with
hasMermaid = false. -/
theorem c6_bootstrap_iff_hasMermaid (bodyHtml cssContent : String)
    (hcss : cleanFor mermaidScriptTag.data cssContent.data = true)
    (hbody : cleanFor mermaidScriptTag.data bodyHtml.data = true) :
    occursIn mermaidScriptTag.data
        (buildHtmlDocument bodyHtml cssContent true).data = true ∧
    occursIn mermaidScriptTag.data
        (buildHtmlDocument bodyHtml cssContent false).data = false ∧
    (∀ doc : List Seg, mermaidCodes doc = [] →
      markdownToHtml doc =
        Except.ok (concatStrs (chunksFrom 0 doc), false)) :=
  ⟨bootstrap_present bodyHtml cssContent,
   bootstrap_absent bodyHtml cssContent hcss hbody,
   markdownToHtml_no_mermaid⟩

theorem c6_witness :
    occursIn mermaidScriptTag.data
        (buildHtmlDocument "<p>b</p>" "body \x7b margin: 0 \x7d" true).data = true ∧
    occursIn mermaidScriptTag.data
        (buildHtmlDocument "<p>b</p>" "body \x7b margin: 0 \x7d" false).data = false ∧
    (∀ doc : List Seg, mermaidCodes doc = [] →
      markdownToHtml doc =
        Except.ok (concatStrs (chunksFrom 0 doc), false)) :=
  c6_bootstrap_iff_hasMermaid "<p>b</p>" "body \x7b margin: 0 \x7d"
    (by decide) (by decide)

/-- C7: with hasMermaid false the render engine never enters the
diagram wait -- no wait call, no settle delay, export directly after
load; with hasMermaid true and the completion predicate holding,
exactly one 500 ms settle delay runs after the bounded wait and before
export. -/
theorem c7_diagram_wait_protocol (env : Env) (content out : String)
    (hl : env.launchOk = true) (he : env.exportOk = true) :
    (generatePdf env content out false).1 =
      [Ev.launch, Ev.newPage, Ev.setContentEv content,
       Ev.exportEv (pdfExportOpts out), Ev.closeEv] ∧
    (∀ t, Ev.waitDiagramsEv t ∉ (generatePdf env content out false).1) ∧
    (∀ m, Ev.settleEv m ∉ (generatePdf env content out false).1) ∧
    (env.diagramsReady = true →
      (generatePdf env content out true).1 =
        [Ev.launch, Ev.newPage, Ev.setContentEv content,
         Ev.waitDiagramsEv 30000, Ev.settleEv 500,
         Ev.exportEv (pdfExportOpts out), Ev.closeEv] ∧
      (generatePdf env content out true).1.filter isSettle
        = [Ev.settleEv 500]) := by
  obtain ⟨l, d, e⟩ := env
  simp only at hl he
  subst hl
  subst he
  refine ⟨by simp [generatePdf], ?_, ?_, ?_⟩
  · intro t
    simp [generatePdf]
  · intro m
    simp [generatePdf]
  · intro hd
    simp only at hd
    subst hd
    constructor
    · simp [generatePdf]
    · simp [generatePdf, isSettle]

theorem c7_witness :
    (generatePdf ⟨true, true, true⟩ "x" "o.pdf" false).1 =
      [Ev.launch, Ev.newPage, Ev.setContentEv "x",
       Ev.exportEv (pdfExportOpts "o.pdf"), Ev.closeEv] ∧
    (∀ t, Ev.waitDiagramsEv t ∉ (generatePdf ⟨true, true, true⟩ "x" "o.pdf" false).1) ∧
    (∀ m, Ev.settleEv m ∉ (generatePdf ⟨true, true, true⟩ "x" "o.pdf" false).1) ∧
    ((true : Bool) = true →
      (generatePdf ⟨true, true, true⟩ "x" "o.pdf" true).1 =
        [Ev.launch, Ev.newPage, Ev.setContentEv "x",
         Ev.waitDiagramsEv 30000, Ev.settleEv 500,
         Ev.exportEv (pdfExportOpts "o.pdf"), Ev.closeEv] ∧
      (generatePdf ⟨true, true, true⟩ "x" "o.pdf" true).1.filter isSettle
        = [Ev.settleEv 500]) :=
  c7_diagram_wait_protocol ⟨true, true, true⟩ "x" "o.pdf" rfl rfl

/-- C8: every export call, on every path, uses one fixed page format:
A4, margins 20mm/15mm/20mm/15mm, backgrounds on, CSS page-size
override off; only the output path varies and no page dimension can be
supplied by the caller. -/
theorem c8_fixed_export_format (env : Env) (content out : String)
    (hasMermaid : Bool) :
    (generatePdf env content out hasMermaid).1.all (exportOptsOk out)
        = true ∧
    (pdfExportOpts out).format = "A4" ∧
    (pdfExportOpts out).marginTop = "20mm" ∧
    (pdfExportOpts out).marginRight = "15mm" ∧
    (pdfExportOpts out).marginBottom = "20mm" ∧
    (pdfExportOpts out).marginLeft = "15mm" ∧
    (pdfExportOpts out).printBackground = true ∧
    (pdfExportOpts out).preferCSSPageSize = false := by
  obtain ⟨l, d, e⟩ := env
  refine ⟨?_, rfl, rfl, rfl, rfl, rfl, rfl, rfl⟩
  cases l <;> cases d <;> cases e <;> cases hasMermaid <;>
    simp [generatePdf, exportOptsOk]

/-- C9: a fence whose tag is absent or not a registered language never
reaches the throwing highlighter: the callback falls back to automatic
detection and returns successfully, and the parse stage as a whole
never fails on any document. -/
theorem c9_unknown_language_fallback (st : Nat × List MermaidBlock)
    (code lang : String) (hm : lang ≠ "mermaid")
    (hu : lang = "" ∨ hljsGetLanguage lang = false) :
    highlightFn st code lang = (st, Except.ok (hljsHighlightAuto code)) ∧
    (∀ doc : List Seg, ∃ v, parseGo (0, []) "" doc = Except.ok v) := by
  have hno : ¬ (lang ≠ "" ∧ hljsGetLanguage lang) := by
    rintro ⟨hne, hget⟩
    rcases hu with h | h
    · exact hne h
    · rw [h] at hget
      exact Bool.false_ne_true hget
  refine ⟨?_, fun doc => ⟨_, parseGo_eq doc 0 [] ""⟩⟩
  rw [highlightFn, if_neg hm, if_neg hno]

theorem c9_witness :
    highlightFn (0, []) "print(1)" "klingon"
      = ((0, []), Except.ok (hljsHighlightAuto "print(1)")) :=
  (c9_unknown_language_fallback (0, []) "print(1)" "klingon"
    (by decide) (Or.inr (by decide))).1

/-- C10: escapeHtml is injective and round-trippable: unescapeHtml
recovers every input exactly, so distinct inputs escape to distinct
outputs and the literal diagram source is always recoverable from a
container payload. -/
theorem c10_escape_injective_roundtrip :
    (∀ s : String, unescapeHtml (escapeHtml s) = s) ∧
    Function.Injective escapeHtml :=
  ⟨unescapeHtml_escapeHtml, escapeHtml_injective⟩

end MdToPdf
